import Mathlib

/-
Verification of the strategy-signal and backtest-simulation core of the
okx-trading-bot repository, as a shallow embedding in Lean 4.

Sources embedded:
  * Backtesting/backtester.py   (Backtester.run_backtest, Backtester.generate_report)
  * src/strategy/strategy.py    (MACDStrategy, RSIStrategy, CombinedStrategy)

Prices and capital are modelled as exact rationals.  Pandas/NumPy float
semantics matter only at the isolated degenerate divisions; where they do,
the embedding encodes the IEEE outcome explicitly (x/0 = +inf for x > 0,
0/0 = NaN, comparisons with NaN are false) using Option, with a comment at
the definition.
-/

namespace OkxBot

/-- Trade signal emitted per bar; the source uses the strings
"buy" / "sell" / "hold" in the signal_action column. -/
inductive Signal where
  | buy
  | sell
  | hold
deriving DecidableEq, Repr

/-- Trade record appended to the trades list by Backtester.run_backtest.
A buy dict carries type, date, price, capital; a sell dict additionally
carries profit_pct.  The date is modelled as the bar index. -/
inductive Trade where
  | buy (idx : ℕ) (price capital : ℚ)
  | sell (idx : ℕ) (price capital profit : ℚ)
deriving DecidableEq, Repr

/-- Mutable loop state of the simulation in run_backtest: running capital,
the 0/1 position flag, the entry price of the open position (meaningful
only while the position is open) and the accumulated trades list. -/
structure SimState where
  capital : ℚ
  position : Bool
  entry : ℚ
  trades : List Trade
deriving DecidableEq, Repr

/-- One iteration of the simulation loop (backtester.py lines 86-133) at bar
index i: mark to market if a position is open
(capital *= 1 + (close/prev_close - 1)), then open on a buy signal while
flat, or close on a sell signal while long
(profit_pct = (exit_price/entry_price - 1) * 100). -/
def stepSim (st : SimState) (i : ℕ) (prevClose close : ℚ) (sig : Signal) : SimState :=
  let cap1 := if st.position then st.capital * (1 + (close / prevClose - 1)) else st.capital
  match sig with
  | .buy =>
      if st.position = false then
        { capital := cap1, position := true, entry := close,
          trades := st.trades ++ [Trade.buy i close cap1] }
      else
        { st with capital := cap1 }
  | .sell =>
      if st.position = true then
        { capital := cap1, position := false, entry := st.entry,
          trades := st.trades ++ [Trade.sell i close cap1 ((close / st.entry - 1) * 100)] }
      else
        { st with capital := cap1 }
  | .hold => { st with capital := cap1 }

/-- Runs the simulation loop over the bars after bar 0, threading the
previous close and the bar index, and recording the per-bar capital column
(df.at[...,'capital'] = capital).  Returns the final state and the capital
values written for these bars. -/
def simAux (st : SimState) (i : ℕ) (prevClose : ℚ) :
    List (ℚ × Signal) → SimState × List ℚ
  | [] => (st, [])
  | (c, s) :: rest =>
      let st2 := stepSim st i prevClose c s
      let r := simAux st2 (i + 1) c rest
      (r.1, st2.capital :: r.2)

/-- Full simulation of run_backtest for one symbol: bar 0 is the seed (its
signal is never evaluated, its capital cell keeps the initial capital), the
loop runs over bars 1..n-1.  Each bar is a pair (close, signal_action).
Returns the final state and the whole capital column. -/
def runSimulation (initial : ℚ) (bars : List (ℚ × Signal)) : SimState × List ℚ :=
  match bars with
  | [] => ({ capital := initial, position := false, entry := 0, trades := [] }, [])
  | (c0, _) :: rest =>
      let r := simAux { capital := initial, position := false, entry := 0, trades := [] }
        1 c0 rest
      (r.1, initial :: r.2)

/-- Total return metric (line 147): (df['capital'].iloc[-1] / initial_capital - 1) * 100.
The default for an empty column never occurs because run_backtest returns
early when the data frame is empty. -/
def totalReturn (initial : ℚ) (caps : List ℚ) : ℚ :=
  (caps.getLastD initial / initial - 1) * 100

/-- Trade-count metric (line 174): len(trades) // 2. -/
def tradesCount (trades : List Trade) : ℕ :=
  trades.length / 2

/-- Is this trade a sell record? -/
def Trade.isSell : Trade → Bool
  | .sell _ _ _ _ => true
  | _ => false

/-- Is this trade a buy record? -/
def Trade.isBuy : Trade → Bool
  | .buy _ _ _ => true
  | _ => false

/-- Winning trades (line 161): sell records whose profit_pct is positive. -/
def winningCount (trades : List Trade) : ℕ :=
  (trades.filter fun t =>
    match t with
    | .sell _ _ _ p => decide (0 < p)
    | _ => false).length

/-- Python true division returning none on ZeroDivisionError. -/
def pyDiv (a b : ℚ) : Option ℚ :=
  if b = 0 then none else some (a / b)

/-- Win-rate metric (lines 159-164).  The source computes
len(winning_trades) / (len(trades) // 2) * 100 under the guard
"if len(trades) > 0 else 0", inside "if trades: ... else: win_rate = 0";
a division by zero (possible because the guard tests len(trades), not
len(trades) // 2) is modelled as none. -/
def winRate (trades : List Trade) : Option ℚ :=
  if trades.isEmpty then
    some 0
  else
    if trades.length > 0 then
      (pyDiv (winningCount trades : ℚ) ((tradesCount trades : ℕ) : ℚ)).map (· * 100)
    else
      some 0

/-- Per-bar simple returns of the capital column (line 136,
df['capital'].pct_change()), omitting the undefined first entry. -/
def capReturns (caps : List ℚ) : List ℚ :=
  (caps.zip caps.tail).map fun p => p.2 / p.1 - 1

/-- Cumulative returns (line 139): running product of (1 + return) over the
defined returns; pandas cumprod skips the leading NaN, so entry i equals the
product of the first i+1 return factors. -/
def cumProd1p (acc : ℚ) : List ℚ → List ℚ
  | [] => []
  | r :: rs => (acc * (1 + r)) :: cumProd1p (acc * (1 + r)) rs

/-- Cumulative-return series of a capital column. -/
def cumRets (caps : List ℚ) : List ℚ :=
  cumProd1p 1 (capReturns caps)

/-- Running maximum with accumulator. -/
def runMaxAux (m : ℚ) : List ℚ → List ℚ
  | [] => []
  | x :: xs => max m x :: runMaxAux (max m x) xs

/-- Running maximum (line 142, cummax) of a series. -/
def runMax (l : List ℚ) : List ℚ :=
  match l with
  | [] => []
  | x :: xs => x :: runMaxAux x xs

/-- Per-bar drawdown percentage (lines 143-144):
(cummax - cumulative_returns) / cummax, pointwise. -/
def drawdownPcts (caps : List ℚ) : List ℚ :=
  List.zipWith (fun m c => (m - c) / m) (runMax (cumRets caps)) (cumRets caps)

/-- Pandas Series.max() with its default skipna=True, applied to the list
of defined (non-NaN) entries of the series: the maximum of a series with no
defined entry (for the drawdown column, any simulation of fewer than 2
bars) is NaN, modelled as none. -/
def pdMax : List ℚ → Option ℚ
  | [] => none
  | x :: xs => some (xs.foldl max x)

/-- Max-drawdown metric (line 157): df['drawdown_pct'].max() * 100, NaN
(none) when every drawdown entry is NaN. -/
def maxDrawdown (caps : List ℚ) : Option ℚ :=
  (pdMax (drawdownPcts caps)).map (· * 100)

/-
Strategy layer (src/strategy/strategy.py).
-/

/-- Exponential moving average with adjust=False
(pandas ewm(span=s, adjust=False).mean()): the smoothing factor is
alpha = 2/(s+1), the recurrence seeds from the first value,
e_i = (1-alpha)*e_(i-1) + alpha*x_i. -/
def ewmAux (alpha acc : ℚ) : List ℚ → List ℚ
  | [] => []
  | x :: xs =>
      let e := (1 - alpha) * acc + alpha * x
      e :: ewmAux alpha e xs

/-- Exponential moving average of a series for a given span. -/
def ewm (span : ℕ) : List ℚ → List ℚ
  | [] => []
  | x :: xs => x :: ewmAux (2 / ((span : ℚ) + 1)) x xs

/-- MACD line and signal line of MACDStrategy.calculate_macd:
macd = ema_fast - ema_slow, signal = ewm of macd over the signal span. -/
def macdOf (fast slow : ℕ) (closes : List ℚ) : List ℚ :=
  List.zipWith (fun a b => a - b) (ewm fast closes) (ewm slow closes)

/-- Signal line of the MACD. -/
def macdSignalOf (fast slow signalSpan : ℕ) (closes : List ℚ) : List ℚ :=
  ewm signalSpan (macdOf fast slow closes)

/-- Crossover signal at one bar of MACDStrategy.generate_signals, given this
bar's and the previous bar's (macd, signal) values: the buy mask is
macd > signal and prev macd <= prev signal, the sell mask the mirror image;
the sell assignment is executed second and would overwrite buy (the two
masks are in fact disjoint). -/
def macdCrossAt (pm ps m s : ℚ) : Signal :=
  if m < s ∧ pm ≥ ps then .sell
  else if m > s ∧ pm ≤ ps then .buy
  else .hold

/-- Crossover signals along the zipped (macd, signal) series; the first bar
stays hold because shift(1) is NaN there and NaN comparisons are false. -/
def crossSigsAux (pm ps : ℚ) : List (ℚ × ℚ) → List Signal
  | [] => []
  | (m, s) :: rest => macdCrossAt pm ps m s :: crossSigsAux m s rest

/-- Signal column produced by MACDStrategy.generate_signals. -/
def macdSignalActions (fast slow signalSpan : ℕ) (closes : List ℚ) : List Signal :=
  match List.zip (macdOf fast slow closes) (macdSignalOf fast slow signalSpan closes) with
  | [] => []
  | (m0, s0) :: rest => .hold :: crossSigsAux m0 s0 rest

/-- Per-bar gains of RSIStrategy.calculate_rsi:
np.where(price_change > 0, price_change, 0); the first bar's diff is NaN,
and NaN > 0 is false, so the first gain is 0. -/
def gains (closes : List ℚ) : List ℚ :=
  match closes with
  | [] => []
  | _ :: _ => 0 :: (closes.zip closes.tail).map fun p => max (p.2 - p.1) 0

/-- Per-bar losses: np.where(price_change < 0, -price_change, 0). -/
def losses (closes : List ℚ) : List ℚ :=
  match closes with
  | [] => []
  | _ :: _ => 0 :: (closes.zip closes.tail).map fun p => max (p.1 - p.2) 0

/-- Sum of a list of rationals. -/
def qsum (l : List ℚ) : ℚ := l.foldl (· + ·) 0

/-- Rolling mean over a window (pandas rolling(window=p).mean()): entry i is
the mean of entries i-p+1..i once i+1 >= p, and NaN (none) before that.
Implemented by walking the list with the reversed prefix so far. -/
def rollingMeanAux (p : ℕ) (prefixRev : List ℚ) : List ℚ → List (Option ℚ)
  | [] => []
  | x :: xs =>
      let win := x :: prefixRev
      (if p ≤ win.length ∧ 0 < p then some (qsum (win.take p) / (p : ℚ)) else none)
        :: rollingMeanAux p (win) xs

/-- Rolling mean of a series. -/
def rollingMean (p : ℕ) (l : List ℚ) : List (Option ℚ) :=
  rollingMeanAux p [] l

/-- RSI value from one bar's (avg_gain, avg_loss), following the float
semantics of rs = avg_gain/avg_loss and rsi = 100 - 100/(1+rs): a NaN
average propagates to NaN; when avg_loss = 0 the quotient is +inf if
avg_gain > 0 (rsi = 100 - 100/inf = 100) and NaN if avg_gain = 0
(rsi = NaN); none stands for NaN.  Both averages are nonnegative, so no
other degenerate case arises. -/
def rsiOfAvgs : Option ℚ → Option ℚ → Option ℚ
  | some g, some l =>
      if l = 0 then (if g = 0 then none else some 100)
      else some (100 - 100 / (1 + g / l))
  | _, _ => none

/-- Pointwise application of rsiOfAvgs along the two average series. -/
def rsiPairs : List (Option ℚ) → List (Option ℚ) → List (Option ℚ)
  | g :: gs, l :: ls => rsiOfAvgs g l :: rsiPairs gs ls
  | _, _ => []

/-- RSI column of RSIStrategy.calculate_rsi for a given period. -/
def rsiList (period : ℕ) (closes : List ℚ) : List (Option ℚ) :=
  rsiPairs (rollingMean period (gains closes)) (rollingMean period (losses closes))

/-- Threshold-crossing signal at one bar of RSIStrategy.generate_signals
from the previous and current RSI values (none = NaN, all comparisons with
NaN are false): buy when rsi > oversold and prev rsi <= oversold, sell when
rsi < overbought and prev rsi >= overbought, sell assigned second. -/
def rsiCrossAt (os ob : ℚ) (prev cur : Option ℚ) : Signal :=
  match prev, cur with
  | some p, some c =>
      if c < ob ∧ p ≥ ob then .sell
      else if c > os ∧ p ≤ os then .buy
      else .hold
  | _, _ => .hold

/-- Threshold-crossing signals along the RSI series; the first bar stays
hold (shift(1) is NaN). -/
def rsiSigsAux (os ob : ℚ) (prev : Option ℚ) : List (Option ℚ) → List Signal
  | [] => []
  | c :: rest => rsiCrossAt os ob prev c :: rsiSigsAux os ob c rest

/-- Signal column produced by RSIStrategy.generate_signals. -/
def rsiSignalActions (period : ℕ) (os ob : ℚ) (closes : List ℚ) : List Signal :=
  match rsiList period closes with
  | [] => []
  | c0 :: rest => .hold :: rsiSigsAux os ob c0 rest

/-- Vote aggregation at one bar of CombinedStrategy.generate_signals
(lines 133-150): tally buy/sell/hold votes, take the maximal count, then
emit buy if buy reaches it, else sell if sell reaches it, else hold. -/
def majorityVote (sigs : List Signal) : Signal :=
  let b := sigs.count .buy
  let s := sigs.count .sell
  let h := sigs.count .hold
  let m := max (max b s) h
  if b = m then .buy else if s = m then .sell else .hold

/-
Strategy variants of strategy.py; Combined holds an ordered list of
sub-strategies, represented by a mutually defined list type so that the
structural recursion of generate_signals is explicit.
-/
mutual

/-- Strategy variant: MACD crossover, RSI threshold, or Combined vote. -/
inductive Strategy where
  | macd (fast slow signalSpan : ℕ)
  | rsi (period : ℕ) (oversold overbought : ℚ)
  | combined (subs : StrategyList)

/-- Ordered list of sub-strategies of a combined strategy. -/
inductive StrategyList where
  | nil
  | cons (s : Strategy) (rest : StrategyList)

end

/-- Is the sub-strategy list empty? -/
def StrategyList.isNil : StrategyList → Bool
  | .nil => true
  | .cons _ _ => false

/-- Combined aggregation over the sub-strategies' signal columns: for each
row index, collect the i-th signal of every sub-strategy and apply the
majority vote.  All columns have the length of the close series; the
default is never used. -/
def combineVotes (n : ℕ) (cols : List (List Signal)) : List Signal :=
  (List.range n).map fun i => majorityVote (cols.map fun col => col.getD i .hold)

mutual

/-- Signal column produced by generate_signals of each strategy variant.
CombinedStrategy with an empty sub-strategy list returns the input data
unchanged, which carries no signal_action column: modelled as none.  A
combined strategy one of whose sub-strategies yields no signal column would
raise a KeyError reading it: none propagates. -/
def generateSignals : Strategy → List ℚ → Option (List Signal)
  | .macd f s g, closes => some (macdSignalActions f s g closes)
  | .rsi p os ob, closes => some (rsiSignalActions p os ob closes)
  | .combined subs, closes =>
      if subs.isNil then none
      else
        match generateAll subs closes with
        | none => none
        | some cols => some (combineVotes closes.length cols)

/-- Signal columns of a list of sub-strategies, none if any fails. -/
def generateAll : StrategyList → List ℚ → Option (List (List Signal))
  | .nil, _ => some []
  | .cons s rest, closes =>
      match generateSignals s closes, generateAll rest closes with
      | some col, some cols => some (col :: cols)
      | _, _ => none

end

/-
Report aggregation (backtester.py, Backtester.generate_report).
-/

/-- Per-symbol numeric metrics stored in self.results and read by
generate_report. -/
structure SymbolResult where
  totalReturnPct : ℚ
  annualReturnPct : ℚ
  sharpe : ℚ
  maxDrawdownPct : ℚ
  winRatePct : ℚ
  tradesNum : ℕ
deriving DecidableEq, Repr

/-- Outcome of generate_report: the "No results available" early return, or
the overall averages of return, sharpe, drawdown and win rate. -/
inductive Report where
  | noResults
  | summary (avgReturn avgSharpe avgDrawdown avgWinRate : ℚ)
deriving DecidableEq, Repr

/-- Report aggregation (lines 205-259): an empty results mapping returns the
"No results available" outcome before any division; otherwise each overall
figure is sum(metric)/len(results). -/
def generateReport (results : List SymbolResult) : Report :=
  if results.isEmpty then .noResults
  else
    .summary
      (qsum (results.map (·.totalReturnPct)) / (results.length : ℚ))
      (qsum (results.map (·.sharpe)) / (results.length : ℚ))
      (qsum (results.map (·.maxDrawdownPct)) / (results.length : ℚ))
      (qsum (results.map (·.winRatePct)) / (results.length : ℚ))

/-- Simple arithmetic mean as worded by the specification, for comparison
with the figures computed by generateReport. -/
def specMean (l : List ℚ) : ℚ := l.sum / (l.length : ℚ)

/-
Auxiliary notions used by the stated properties.
-/

/-- Close price of the last bar of a stretch, with a fallback for an empty
stretch: the previous close threaded through the simulation loop. -/
def lastClose (p : ℚ) : List (ℚ × Signal) → ℚ
  | [] => p
  | q :: qs => lastClose q.1 qs

/-- Strict buy/sell alternation of a trade list; the flag tells which record
kind is expected next (false = a buy, true = a sell). -/
def altExpect : Bool → List Trade → Bool
  | _, [] => true
  | false, t :: ts => t.isBuy && altExpect true ts
  | true, t :: ts => t.isSell && altExpect false ts

/-- Number of sell records in a trade list. -/
def sellCount (l : List Trade) : ℕ :=
  (l.filter (·.isSell)).length

/-
Theorems.
-/

/-- C1.  The claim says metric derivation never raises and that the win-rate
division-by-zero degenerate case is recovered with the documented fallback,
in particular for a trade list holding exactly one dangling open Buy.  The
code violates this: closes 100, 100 with signals hold, buy leave exactly one
open Buy record, and the win-rate computation divides
len(winning_trades) = 0 by len(trades) // 2 = 0 because its guard tests
len(trades) > 0 instead, raising ZeroDivisionError (modelled as none). -/
theorem c1_single_buy_zero_division :
    (runSimulation 10000 [(100, Signal.hold), (100, Signal.buy)]).1.trades
      = [Trade.buy 1 100 10000] ∧
    winRate (runSimulation 10000 [(100, Signal.hold), (100, Signal.buy)]).1.trades
      = none := by
  decide

/-- C2.  Example scenario: closes 100, 110, 90, 120 with signals hold, buy,
hold, sell and initial capital 10000 leave the capital column at
10000, 10000, 10000*(90/110), 10000*(90/110)*(120/90), a final capital of
10000*(120/110), total return (120/110 - 1)*100, and exactly one completed
trade whose sell record carries profit_pct = (120/110 - 1)*100. -/
theorem c2_example_scenario :
    (runSimulation 10000 [(100, Signal.hold), (110, Signal.buy),
        (90, Signal.hold), (120, Signal.sell)]).2
      = [10000, 10000, 10000 * (90 / 110), 10000 * (90 / 110) * (120 / 90)] ∧
    (runSimulation 10000 [(100, Signal.hold), (110, Signal.buy),
        (90, Signal.hold), (120, Signal.sell)]).1.capital = 10000 * (120 / 110) ∧
    totalReturn 10000 (runSimulation 10000 [(100, Signal.hold), (110, Signal.buy),
        (90, Signal.hold), (120, Signal.sell)]).2 = (120 / 110 - 1) * 100 ∧
    tradesCount (runSimulation 10000 [(100, Signal.hold), (110, Signal.buy),
        (90, Signal.hold), (120, Signal.sell)]).1.trades = 1 ∧
    (runSimulation 10000 [(100, Signal.hold), (110, Signal.buy),
        (90, Signal.hold), (120, Signal.sell)]).1.trades
      = [Trade.buy 1 110 10000,
         Trade.sell 3 120 (10000 * (120 / 110)) ((120 / 110 - 1) * 100)] := by
  refine ⟨?_, ?_, ?_, ?_, ?_⟩ <;>
    norm_num [runSimulation, simAux, stepSim, totalReturn, tradesCount]

/-- C3, counterexample.  The claim says every bar with avg_loss = 0 gets
RSI = 100 regardless of avg_gain.  With period 2 and constant closes
1, 1, 1, bar 1 has avg_gain = 0 and avg_loss = 0, so rs = 0/0 is NaN and
the RSI is NaN (none), not 100. -/
theorem c3_counterexample :
    (rollingMean 2 (losses [1, 1, 1]))[1]? = some (some 0) ∧
    (rollingMean 2 (gains [1, 1, 1]))[1]? = some (some 0) ∧
    (rsiList 2 [1, 1, 1])[1]? = some none := by
  refine ⟨?_, ?_, ?_⟩ <;>
    norm_num [rollingMean, rollingMeanAux, losses, gains, rsiList, rsiPairs,
      rsiOfAvgs, qsum]

/-- C4, counterexample.  The claim includes a Combined strategy with an
empty sub-strategy list, but CombinedStrategy.generate_signals returns the
input data unchanged in that case, with no signal_action column at all, so
no signal series of the bars' length with leading hold is produced. -/
theorem c4_counterexample :
    generateSignals (Strategy.combined StrategyList.nil) [100, 110] = none := by
  decide

/-- C5, counterexample.  The claim says an exact Buy-Sell tie yields Buy
with or without Hold votes; but with votes buy, sell, hold, hold, hold the
maximal count belongs to hold alone, and the code emits hold. -/
theorem c5_counterexample :
    List.count Signal.buy [Signal.buy, Signal.sell, Signal.hold, Signal.hold, Signal.hold]
      = List.count Signal.sell
          [Signal.buy, Signal.sell, Signal.hold, Signal.hold, Signal.hold] ∧
    majorityVote [Signal.buy, Signal.sell, Signal.hold, Signal.hold, Signal.hold]
      = Signal.hold := by
  decide

/-- Pointwise indexing of rsiPairs. -/
theorem rsiPairs_get (gs : List (Option ℚ)) :
    ∀ (ls : List (Option ℚ)) (i : ℕ) (g l : Option ℚ),
      gs[i]? = some g → ls[i]? = some l →
      (rsiPairs gs ls)[i]? = some (rsiOfAvgs g l) := by
  induction gs with
  | nil => intro ls i g l hg _; simp at hg
  | cons x xs ih =>
      intro ls i g l hg hl
      cases ls with
      | nil => simp at hl
      | cons y ys =>
          cases i with
          | zero =>
              simp only [List.getElem?_cons_zero, Option.some_inj] at hg hl
              subst hg; subst hl
              simp [rsiPairs]
          | succ n =>
              simp only [List.getElem?_cons_succ] at hg hl
              simpa [rsiPairs] using ih ys n g l hg hl

/-- C3, amended.  At every bar whose avg_loss is 0 while avg_gain is
positive, the quotient rs is +infinity and the RSI value is 100; when
avg_gain is also 0 the RSI is NaN instead (see the counterexample). -/
theorem c3_rsi_amended (period : ℕ) (closes : List ℚ) (i : ℕ) (g : ℚ)
    (hg : (rollingMean period (gains closes))[i]? = some (some g))
    (hl : (rollingMean period (losses closes))[i]? = some (some 0))
    (hgpos : 0 < g) :
    (rsiList period closes)[i]? = some (some 100) := by
  have h := rsiPairs_get _ _ i _ _ hg hl
  rw [rsiList, h]
  simp [rsiOfAvgs, hgpos.ne']

/-- C3, witness: period 2, closes 1, 2, 3; bar 1 has avg_gain 1/2 and
avg_loss 0, so its RSI is 100. -/
theorem c3_witness :
    (rsiList 2 [1, 2, 3])[1]? = some (some 100) :=
  c3_rsi_amended 2 [1, 2, 3] 1 (1 / 2)
    (by norm_num [rollingMean, rollingMeanAux, gains, qsum])
    (by norm_num [rollingMean, rollingMeanAux, losses, qsum])
    (by norm_num)

/-- C5, amended.  The per-bar vote aggregation of the combined strategy
emits buy when every sub-strategy votes buy, sell when every sub-strategy
votes sell, and buy on an exact buy-sell tie provided the hold count does
not exceed the tied count (when hold votes strictly outnumber the tie, hold
alone holds the maximal count and is emitted — see the counterexample). -/
theorem c5_vote_amended (sigs : List Signal) (hne : sigs ≠ []) :
    ((∀ x ∈ sigs, x = Signal.buy) → majorityVote sigs = Signal.buy) ∧
    ((∀ x ∈ sigs, x = Signal.sell) → majorityVote sigs = Signal.sell) ∧
    (sigs.count Signal.buy = sigs.count Signal.sell →
      sigs.count Signal.hold ≤ sigs.count Signal.buy →
      majorityVote sigs = Signal.buy) := by
  have hlen : 0 < sigs.length := List.length_pos.mpr hne
  refine ⟨?_, ?_, ?_⟩
  · intro h
    have hb : sigs.count Signal.buy = sigs.length := by
      rw [List.count_eq_length]; intro b hbm; exact (h b hbm).symm
    have hs : sigs.count Signal.sell = 0 := by
      rw [List.count_eq_zero]; intro hmem; simpa using h _ hmem
    have hh : sigs.count Signal.hold = 0 := by
      rw [List.count_eq_zero]; intro hmem; simpa using h _ hmem
    simp [majorityVote, hb, hs, hh]
  · intro h
    have hs : sigs.count Signal.sell = sigs.length := by
      rw [List.count_eq_length]; intro b hbm; exact (h b hbm).symm
    have hb : sigs.count Signal.buy = 0 := by
      rw [List.count_eq_zero]; intro hmem; simpa using h _ hmem
    have hh : sigs.count Signal.hold = 0 := by
      rw [List.count_eq_zero]; intro hmem; simpa using h _ hmem
    simp only [majorityVote, hb, hs, hh, Nat.zero_max, Nat.max_zero]
    rw [if_neg (by omega)]
    simp
  · intro h1 h2
    simp only [majorityVote, ← h1, Nat.max_self, Nat.max_eq_left h2]
    simp

/-- C5, witness: one buy vote against one sell vote is an exact maximal tie
and the aggregation emits buy. -/
theorem c5_witness :
    majorityVote [Signal.buy, Signal.sell] = Signal.buy :=
  (c5_vote_amended [Signal.buy, Signal.sell] (by decide)).2.2 (by decide) (by decide)

theorem ewmAux_length (alpha acc : ℚ) (l : List ℚ) :
    (ewmAux alpha acc l).length = l.length := by
  induction l generalizing acc with
  | nil => rfl
  | cons x xs ih => simp [ewmAux, ih]

theorem ewm_length (span : ℕ) (l : List ℚ) : (ewm span l).length = l.length := by
  cases l with
  | nil => rfl
  | cons x xs => simp [ewm, ewmAux_length]

theorem macdOf_length (f s : ℕ) (closes : List ℚ) :
    (macdOf f s closes).length = closes.length := by
  simp [macdOf, ewm_length]

theorem macdSignalOf_length (f s g : ℕ) (closes : List ℚ) :
    (macdSignalOf f s g closes).length = closes.length := by
  simp [macdSignalOf, ewm_length, macdOf_length]

theorem crossSigsAux_length (pm ps : ℚ) (l : List (ℚ × ℚ)) :
    (crossSigsAux pm ps l).length = l.length := by
  induction l generalizing pm ps with
  | nil => rfl
  | cons p rest ih => simp [crossSigsAux, ih]

theorem macdSignalActions_spec (f s g : ℕ) (closes : List ℚ) :
    (macdSignalActions f s g closes).length = closes.length ∧
    (closes ≠ [] → (macdSignalActions f s g closes).head? = some Signal.hold) := by
  have hz : (List.zip (macdOf f s closes) (macdSignalOf f s g closes)).length
      = closes.length := by
    simp [List.length_zip, macdOf_length, macdSignalOf_length]
  rw [macdSignalActions]
  constructor
  · split
    · next heq =>
        rw [heq] at hz
        simp only [List.length_nil] at hz ⊢
        exact hz
    · next m0 s0 rest heq =>
        rw [heq] at hz
        simpa [crossSigsAux_length] using hz
  · intro hne
    split
    · next heq =>
        rw [heq] at hz
        simp only [List.length_nil] at hz
        exact absurd (List.length_eq_zero.mp hz.symm) hne
    · next m0 s0 rest heq => simp

theorem gains_length (closes : List ℚ) : (gains closes).length = closes.length := by
  cases closes with
  | nil => rfl
  | cons c cs => simp [gains]

theorem losses_length (closes : List ℚ) : (losses closes).length = closes.length := by
  cases closes with
  | nil => rfl
  | cons c cs => simp [losses]

theorem rollingMeanAux_length (p : ℕ) (pre l : List ℚ) :
    (rollingMeanAux p pre l).length = l.length := by
  induction l generalizing pre with
  | nil => rfl
  | cons x xs ih => simp [rollingMeanAux, ih]

theorem rollingMean_length (p : ℕ) (l : List ℚ) :
    (rollingMean p l).length = l.length := by
  simp [rollingMean, rollingMeanAux_length]

theorem rsiPairs_length (gs : List (Option ℚ)) :
    ∀ ls : List (Option ℚ), (rsiPairs gs ls).length = min gs.length ls.length := by
  induction gs with
  | nil => intro ls; cases ls <;> simp [rsiPairs]
  | cons g gsr ih =>
      intro ls
      cases ls with
      | nil => simp [rsiPairs]
      | cons l lsr => simp [rsiPairs, ih, Nat.succ_min_succ]

theorem rsiList_length (p : ℕ) (closes : List ℚ) :
    (rsiList p closes).length = closes.length := by
  simp [rsiList, rsiPairs_length, rollingMean_length, gains_length, losses_length]

theorem rsiSigsAux_length (os ob : ℚ) (prev : Option ℚ) (l : List (Option ℚ)) :
    (rsiSigsAux os ob prev l).length = l.length := by
  induction l generalizing prev with
  | nil => rfl
  | cons c rest ih => simp [rsiSigsAux, ih]

theorem rsiSignalActions_spec (p : ℕ) (os ob : ℚ) (closes : List ℚ) :
    (rsiSignalActions p os ob closes).length = closes.length ∧
    (closes ≠ [] → (rsiSignalActions p os ob closes).head? = some Signal.hold) := by
  have hz : (rsiList p closes).length = closes.length := rsiList_length p closes
  rw [rsiSignalActions]
  constructor
  · split
    · next heq =>
        rw [heq] at hz
        simp only [List.length_nil] at hz ⊢
        exact hz
    · next c0 rest heq => rw [heq] at hz; simpa [rsiSigsAux_length] using hz
  · intro hne
    split
    · next heq =>
        rw [heq] at hz
        simp only [List.length_nil] at hz
        exact absurd (List.length_eq_zero.mp hz.symm) hne
    · next c0 rest heq => simp

theorem majorityVote_all_hold (l : List Signal) (hne : l ≠ [])
    (h : ∀ x ∈ l, x = Signal.hold) : majorityVote l = Signal.hold := by
  have hlen : 0 < l.length := List.length_pos.mpr hne
  have hh : l.count Signal.hold = l.length := by
    rw [List.count_eq_length]; intro b hbm; exact (h b hbm).symm
  have hb : l.count Signal.buy = 0 := by
    rw [List.count_eq_zero]; intro hmem; simpa using h _ hmem
  have hs : l.count Signal.sell = 0 := by
    rw [List.count_eq_zero]; intro hmem; simpa using h _ hmem
  simp only [majorityVote, hb, hs, hh, Nat.zero_max, Nat.max_zero]
  rw [if_neg (by omega), if_neg (by omega)]

theorem combineVotes_spec (n : ℕ) (cols : List (List Signal)) (hn : 0 < n)
    (hcols : cols ≠ [])
    (hhead : ∀ col ∈ cols, col.head? = some Signal.hold) :
    (combineVotes n cols).length = n ∧
    (combineVotes n cols).head? = some Signal.hold := by
  constructor
  · simp [combineVotes]
  · have hrange : (List.range n).head? = some 0 := by
      cases n with
      | zero => omega
      | succ m => rw [List.range_succ_eq_map]; rfl
    rw [combineVotes, List.head?_map, hrange]
    simp only [Option.map_some']
    congr 1
    apply majorityVote_all_hold
    · simpa using hcols
    · intro x hx
      simp only [List.mem_map] at hx
      obtain ⟨col, hcol, hxeq⟩ := hx
      have := hhead col hcol
      cases col with
      | nil => simp at this
      | cons a rest =>
          simp at this
          simp [← hxeq, List.getD, this]



theorem generateAll_ne_nil (subs : StrategyList) (closes : List ℚ)
    (cols : List (List Signal)) (hnil : subs.isNil = false)
    (h : generateAll subs closes = some cols) : cols ≠ [] := by
  cases subs with
  | nil => simp [StrategyList.isNil] at hnil
  | cons s rest =>
      rw [generateAll] at h
      cases h1 : generateSignals s closes with
      | none => rw [h1] at h; simp at h
      | some col =>
          cases h2 : generateAll rest closes with
          | none => rw [h1, h2] at h; simp at h
          | some cols2 =>
              rw [h1, h2] at h
              simp only [Option.some_inj] at h
              subst h
              simp

mutual

theorem generateSignals_spec (strat : Strategy) (closes : List ℚ)
    (sigs : List Signal) (hne : closes ≠ [])
    (h : generateSignals strat closes = some sigs) :
    sigs.length = closes.length ∧ sigs.head? = some Signal.hold := by
  cases strat with
  | macd f s g =>
      simp only [generateSignals, Option.some_inj] at h
      subst h
      exact ⟨(macdSignalActions_spec f s g closes).1,
        (macdSignalActions_spec f s g closes).2 hne⟩
  | rsi p os ob =>
      simp only [generateSignals, Option.some_inj] at h
      subst h
      exact ⟨(rsiSignalActions_spec p os ob closes).1,
        (rsiSignalActions_spec p os ob closes).2 hne⟩
  | combined subs =>
      rw [generateSignals] at h
      cases hnil : subs.isNil with
      | true => rw [hnil] at h; simp at h
      | false =>
          rw [hnil] at h
          simp only [Bool.false_eq_true, if_false] at h
          cases hall : generateAll subs closes with
          | none => rw [hall] at h; simp at h
          | some cols =>
              rw [hall] at h
              simp only [Option.some_inj] at h
              subst h
              have hcolsne : cols ≠ [] := generateAll_ne_nil subs closes cols hnil hall
              have hheads : ∀ col ∈ cols, col.head? = some Signal.hold :=
                fun col hc => (generateAll_spec subs closes cols hne hall col hc).2
              exact combineVotes_spec closes.length cols
                (List.length_pos.mpr hne) hcolsne hheads

theorem generateAll_spec (sl : StrategyList) (closes : List ℚ)
    (cols : List (List Signal)) (hne : closes ≠ [])
    (h : generateAll sl closes = some cols) :
    ∀ col ∈ cols, col.length = closes.length ∧ col.head? = some Signal.hold := by
  cases sl with
  | nil =>
      rw [generateAll] at h
      simp only [Option.some_inj] at h
      subst h
      intro col hc
      simp at hc
  | cons s rest =>
      rw [generateAll] at h
      cases h1 : generateSignals s closes with
      | none => rw [h1] at h; simp at h
      | some col =>
          cases h2 : generateAll rest closes with
          | none => rw [h1, h2] at h; simp at h
          | some cols2 =>
              rw [h1, h2] at h
              simp only [Option.some_inj] at h
              subst h
              intro c hc
              rcases List.mem_cons.mp hc with rfl | hmem
              · exact generateSignals_spec s closes c hne h1
              · exact generateAll_spec rest closes cols2 hne h2 c hmem

end

/-- C4, amended.  For every strategy variant and close series of length at
least 2, whenever generate_signals produces a signal series at all (MACD,
RSI, and Combined with a nonempty sub-strategy list all do), that series
has the length of the close series and starts with hold.  A Combined
strategy with an empty sub-strategy list produces no signal series (see the
counterexample). -/
theorem c4_signals_amended (strat : Strategy) (closes : List ℚ)
    (sigs : List Signal) (hlen : 2 ≤ closes.length)
    (h : generateSignals strat closes = some sigs) :
    sigs.length = closes.length ∧ sigs.head? = some Signal.hold :=
  generateSignals_spec strat closes sigs
    (by intro h0; rw [h0] at hlen; simp at hlen) h

/-- C4, witness: the MACD strategy on the two closes 100, 110 produces the
series hold, buy, of length 2 with leading hold. -/
theorem c4_witness :
    generateSignals (Strategy.macd 12 26 9) [100, 110]
        = some [Signal.hold, Signal.buy] ∧
    ([Signal.hold, Signal.buy].length = ([100, 110] : List ℚ).length ∧
      [Signal.hold, Signal.buy].head? = some Signal.hold) := by
  constructor
  · norm_num [generateSignals, macdSignalActions, macdOf, macdSignalOf, ewm,
      ewmAux, crossSigsAux, macdCrossAt]
  · exact c4_signals_amended (Strategy.macd 12 26 9) [100, 110]
      [Signal.hold, Signal.buy] (by norm_num)
      (by norm_num [generateSignals, macdSignalActions, macdOf, macdSignalOf,
        ewm, ewmAux, crossSigsAux, macdCrossAt])

theorem simAux_no_buy (l : List (ℚ × Signal)) :
    ∀ (st : SimState) (i : ℕ) (p : ℚ), st.position = false →
      (∀ q ∈ l, q.2 ≠ Signal.buy) →
      simAux st i p l = (st, List.replicate l.length st.capital) := by
  induction l with
  | nil => intro st i p _ _; rfl
  | cons q rest ih =>
      intro st i p hpos hnb
      obtain ⟨c, s⟩ := q
      have hst2 : stepSim st i p c s = st := by
        obtain ⟨cap, pos, en, tr⟩ := st
        simp only at hpos
        subst hpos
        cases s with
        | buy => exact absurd rfl (hnb (c, .buy) (by simp))
        | sell => simp [stepSim]
        | hold => simp [stepSim]
      rw [simAux, hst2, ih st (i + 1) c hpos (fun q hq => hnb q (by simp [hq]))]
      simp [List.replicate_succ]

/-- C7.  When no buy signal appears in the series, the simulation leaves
capital unchanged at every bar, the final capital equals the initial
capital, and the trade count is 0. -/
theorem c7_no_buy_conserves (initial : ℚ) (bars : List (ℚ × Signal))
    (hnb : ∀ q ∈ bars, q.2 ≠ Signal.buy) :
    (runSimulation initial bars).1.capital = initial ∧
    (runSimulation initial bars).2 = List.replicate bars.length initial ∧
    tradesCount (runSimulation initial bars).1.trades = 0 := by
  cases bars with
  | nil => simp [runSimulation, tradesCount]
  | cons b rest =>
      obtain ⟨c0, s0⟩ := b
      rw [runSimulation]
      rw [simAux_no_buy rest _ 1 c0 rfl (fun q hq => hnb q (by simp [hq]))]
      simp [tradesCount, List.replicate_succ]

/-- C7, witness: two bars with signals hold, sell and initial capital 5000
leave the capital column constant and no trades. -/
theorem c7_witness :
    (runSimulation 5000 [(100, Signal.hold), (101, Signal.sell)]).1.capital = 5000 ∧
    (runSimulation 5000 [(100, Signal.hold), (101, Signal.sell)]).2
      = List.replicate 2 5000 ∧
    tradesCount (runSimulation 5000
      [(100, Signal.hold), (101, Signal.sell)]).1.trades = 0 :=
  c7_no_buy_conserves 5000 [(100, Signal.hold), (101, Signal.sell)] (by decide)

/-- Trade lists reachable by the simulation loop: empty while flat, extended
by an opening buy on the transition to long and by a closing sell on the
transition back to flat. -/
inductive TradesInv : Bool → List Trade → Prop
  | nil : TradesInv false []
  | open_buy (T : List Trade) (i : ℕ) (pr cap : ℚ) :
      TradesInv false T → TradesInv true (T ++ [Trade.buy i pr cap])
  | close_sell (T : List Trade) (i : ℕ) (pr cap pf : ℚ) :
      TradesInv true T → TradesInv false (T ++ [Trade.sell i pr cap pf])

theorem tradesInv_spec (pos : Bool) (T : List Trade) (h : TradesInv pos T) :
    (∀ rest : List Trade, altExpect pos rest = true →
        altExpect false (T ++ rest) = true) ∧
    T.length % 2 = (if pos then 1 else 0) ∧
    sellCount T = T.length / 2 := by
  induction h with
  | nil => simp [altExpect, sellCount]
  | open_buy T i pr cap _ ih =>
      obtain ⟨halt, hpar, hsc⟩ := ih
      simp only [Bool.false_eq_true, if_false] at hpar
      refine ⟨?_, ?_, ?_⟩
      · intro rest hrest
        rw [List.append_assoc]
        apply halt
        simpa [altExpect, Trade.isBuy] using hrest
      · have hp : (T.length + 1) % 2 = 1 := by omega
        simpa using hp
      · have hcnt : sellCount (T ++ [Trade.buy i pr cap]) = sellCount T := by
          simp [sellCount, Trade.isSell]
        rw [hcnt, hsc]
        simp only [List.length_append, List.length_cons, List.length_nil]
        omega
  | close_sell T i pr cap pf _ ih =>
      obtain ⟨halt, hpar, hsc⟩ := ih
      simp only [if_true] at hpar
      refine ⟨?_, ?_, ?_⟩
      · intro rest hrest
        rw [List.append_assoc]
        apply halt
        simpa [altExpect, Trade.isSell] using hrest
      · have hp : (T.length + 1) % 2 = 0 := by omega
        simpa using hp
      · have hcnt : sellCount (T ++ [Trade.sell i pr cap pf])
            = sellCount T + 1 := by
          simp [sellCount, Trade.isSell]
        rw [hcnt, hsc]
        simp only [List.length_append, List.length_cons, List.length_nil]
        omega

theorem simAux_tradesInv (l : List (ℚ × Signal)) :
    ∀ (st : SimState) (i : ℕ) (p : ℚ),
      TradesInv st.position st.trades →
      TradesInv (simAux st i p l).1.position (simAux st i p l).1.trades := by
  induction l with
  | nil => intro st i p h; exact h
  | cons q rest ih =>
      intro st i p h
      obtain ⟨c, s⟩ := q
      rw [simAux]
      apply ih
      obtain ⟨cap, pos, en, tr⟩ := st
      cases s with
      | buy =>
          cases pos with
          | false =>
              simp only [stepSim, if_true]
              exact TradesInv.open_buy tr i c _ h
          | true => simpa [stepSim] using h
      | sell =>
          cases pos with
          | true =>
              simp only [stepSim, if_true]
              exact TradesInv.close_sell tr i c _ _ h
          | false => simpa [stepSim] using h
      | hold => simpa [stepSim] using h

/-- C10.  For every bar series the produced trade list strictly alternates
buy and sell records starting with a buy, and its number of sell records is
len(trades) / 2 rounded down (so at most one trailing buy is unpaired).
That only sell records carry a profit field is structural in the Trade
type, mirroring the dict shapes the source appends. -/
theorem c10_trades_alternate (initial : ℚ) (bars : List (ℚ × Signal)) :
    altExpect false (runSimulation initial bars).1.trades = true ∧
    sellCount (runSimulation initial bars).1.trades
      = (runSimulation initial bars).1.trades.length / 2 := by
  have hinv : TradesInv (runSimulation initial bars).1.position
      (runSimulation initial bars).1.trades := by
    cases bars with
    | nil => exact TradesInv.nil
    | cons b rest =>
        obtain ⟨c0, s0⟩ := b
        rw [runSimulation]
        exact simAux_tradesInv rest _ 1 c0 TradesInv.nil
  obtain ⟨halt, _, hsc⟩ := tradesInv_spec _ _ hinv
  refine ⟨?_, hsc⟩
  have := halt [] (by cases (runSimulation initial bars).1.position <;> rfl)
  simpa using this

theorem qsum_eq_sum (l : List ℚ) : qsum l = l.sum := by
  have haux : ∀ (l : List ℚ) (a : ℚ), l.foldl (· + ·) a = a + l.sum := by
    intro l
    induction l with
    | nil => intro a; simp
    | cons x xs ih => intro a; simp [ih, add_assoc]
  simpa [qsum] using haux l 0

/-- C9.  generate_report on an empty results mapping returns the explicit
"No results available" outcome before any division; on a nonempty mapping
each overall figure is the simple arithmetic mean of the per-symbol metric
(total return, sharpe, max drawdown, win rate). -/
theorem c9_report_aggregation (results : List SymbolResult) :
    generateReport [] = Report.noResults ∧
    (results ≠ [] →
      generateReport results = Report.summary
        (specMean (results.map (·.totalReturnPct)))
        (specMean (results.map (·.sharpe)))
        (specMean (results.map (·.maxDrawdownPct)))
        (specMean (results.map (·.winRatePct)))) := by
  refine ⟨rfl, ?_⟩
  intro hne
  rw [generateReport, if_neg (by simpa [List.isEmpty_iff] using hne)]
  simp [specMean, qsum_eq_sum, List.length_map]

/-- C9, witness: the empty mapping and a singleton mapping. -/
theorem c9_witness :
    generateReport [] = Report.noResults ∧
    generateReport [SymbolResult.mk 1 2 3 4 5 6]
      = Report.summary
        (specMean [1]) (specMean [3]) (specMean [4]) (specMean [5]) := by
  refine ⟨(c9_report_aggregation []).1, ?_⟩
  have h := (c9_report_aggregation [SymbolResult.mk 1 2 3 4 5 6]).2 (by simp)
  simpa using h

theorem lastClose_pos (l : List (ℚ × Signal)) :
    ∀ p : ℚ, 0 < p → (∀ q ∈ l, 0 < q.1) → 0 < lastClose p l := by
  induction l with
  | nil => intro p hp _; exact hp
  | cons q rest ih =>
      intro p hp hall
      rw [lastClose]
      exact ih q.1 (hall q (by simp)) (fun r hr => hall r (by simp [hr]))

theorem simAux_append (l1 : List (ℚ × Signal)) :
    ∀ (l2 : List (ℚ × Signal)) (st : SimState) (i : ℕ) (p : ℚ),
      simAux st i p (l1 ++ l2)
        = ((simAux (simAux st i p l1).1 (i + l1.length) (lastClose p l1) l2).1,
           (simAux st i p l1).2
             ++ (simAux (simAux st i p l1).1 (i + l1.length) (lastClose p l1) l2).2) := by
  induction l1 with
  | nil => intro l2 st i p; simp [simAux, lastClose]
  | cons q rest ih =>
      intro l2 st i p
      obtain ⟨c, s⟩ := q
      simp only [List.cons_append, simAux]
      simp only [List.append_eq]
      rw [ih]
      have hidx : i + 1 + rest.length = i + (rest.length + 1) := by omega
      simp [lastClose, List.length_cons, hidx]

theorem simAux_long_holds (l : List (ℚ × Signal)) :
    ∀ (st : SimState) (i : ℕ) (p : ℚ), st.position = true → p ≠ 0 →
      (∀ q ∈ l, q.2 = Signal.hold ∧ q.1 ≠ 0) →
      (simAux st i p l).1
        = { st with capital := st.capital * lastClose p l / p } := by
  induction l with
  | nil =>
      intro st i p _ hp _
      rw [simAux, lastClose]
      rw [mul_div_assoc, div_self hp, mul_one]
  | cons q rest ih =>
      intro st i p hpos hp hall
      obtain ⟨c, s⟩ := q
      have hs : s = Signal.hold := (hall (c, s) (by simp)).1
      have hc : c ≠ 0 := (hall (c, s) (by simp)).2
      subst hs
      rw [simAux]
      have hstep : stepSim st i p c Signal.hold
          = { st with capital := st.capital * (1 + (c / p - 1)) } := by
        simp [stepSim, hpos]
      rw [hstep]
      rw [ih _ (i + 1) c (by simpa using hpos) hc (fun r hr => hall r (by simp [hr]))]
      rw [lastClose]
      simp only [SimState.mk.injEq, and_true]
      field_simp
      ring

theorem simAux_caps_last (l : List (ℚ × Signal)) :
    ∀ (st : SimState) (i : ℕ) (p : ℚ),
      ((simAux st i p l).2).getLastD st.capital = (simAux st i p l).1.capital := by
  induction l with
  | nil => intro st i p; rfl
  | cons q rest ih =>
      intro st i p
      obtain ⟨c, s⟩ := q
      rw [simAux]
      simp only [List.getLastD_cons]
      exact ih _ (i + 1) c

theorem totalReturn_final (initial : ℚ) (bars : List (ℚ × Signal)) :
    totalReturn initial (runSimulation initial bars).2
      = ((runSimulation initial bars).1.capital / initial - 1) * 100 := by
  cases bars with
  | nil => rfl
  | cons b rest =>
      obtain ⟨c0, s0⟩ := b
      rw [runSimulation, totalReturn]
      simp only [List.getLastD_cons]
      rw [simAux_caps_last rest _ 1 c0]



theorem lastClose_prop (P : ℚ → Prop) (l : List (ℚ × Signal)) :
    ∀ p : ℚ, P p → (∀ q ∈ l, P q.1) → P (lastClose p l) := by
  induction l with
  | nil => intro p hp _; exact hp
  | cons q rest ih =>
      intro p hp hall
      rw [lastClose]
      exact ih q.1 (hall q (by simp)) (fun r hr => hall r (by simp [hr]))

theorem simAux_round_trip (initial c0 cb : ℚ) (pre mid post : List (ℚ × Signal))
    (hcb : cb ≠ 0)
    (hpre : ∀ q ∈ pre, q.2 = Signal.hold)
    (hmid : ∀ q ∈ mid, q.2 = Signal.hold ∧ q.1 ≠ 0)
    (hpost : ∀ q ∈ post, q.2 = Signal.hold) :
    (simAux { capital := initial, position := false, entry := 0, trades := [] } 1 c0
        (pre ++ (cb, Signal.buy) :: (mid ++ (cb, Signal.sell) :: post))).1
      = { capital := initial, position := false, entry := cb,
          trades := [Trade.buy (1 + pre.length) cb initial,
                     Trade.sell (1 + pre.length + 1 + mid.length) cb initial 0] } := by
  have hL : lastClose cb mid ≠ 0 :=
    lastClose_prop (· ≠ 0) mid cb hcb (fun q hq => (hmid q hq).2)
  rw [simAux_append pre]
  rw [simAux_no_buy pre _ 1 c0 rfl (fun q hq => by simp [hpre q hq])]
  simp only
  rw [simAux]
  simp only
  have hstep1 : stepSim { capital := initial, position := false, entry := 0, trades := [] }
      (1 + pre.length) (lastClose c0 pre) cb Signal.buy
      = { capital := initial, position := true, entry := cb,
          trades := [Trade.buy (1 + pre.length) cb initial] } := by
    simp [stepSim]
  rw [hstep1]
  rw [simAux_append mid]
  rw [simAux_long_holds mid _ (1 + pre.length + 1) cb rfl hcb hmid]
  simp only
  rw [simAux]
  simp only
  have hstep2 : stepSim
      { capital := initial * lastClose cb mid / cb, position := true, entry := cb,
        trades := [Trade.buy (1 + pre.length) cb initial] }
      (1 + pre.length + 1 + mid.length) (lastClose cb mid) cb Signal.sell
      = { capital := initial, position := false, entry := cb,
          trades := [Trade.buy (1 + pre.length) cb initial,
                     Trade.sell (1 + pre.length + 1 + mid.length) cb initial 0] } := by
    have hprofit : (cb / cb - 1) * 100 = 0 := by
      rw [div_self hcb]; ring
    simp [stepSim, hprofit]
    field_simp
  rw [hstep2]
  rw [simAux_no_buy post _ _ cb rfl (fun q hq => by simp [hpost q hq])]

/-- C6.  Round-trip law: a simulation whose signal series holds exactly one
buy (not on the seed bar) followed later by exactly one sell at the same
close price, all other signals hold, produces exactly one buy and one sell
record, the sell record carrying profit_pct 0, and a total return of 0: the
per-bar mark-to-market factors telescope to exit_price / entry_price = 1. -/
theorem c6_round_trip (initial c0 cb cs : ℚ) (pre mid post : List (ℚ × Signal))
    (hinit : 0 < initial) (hcb : 0 < cb)
    (hpre : ∀ q ∈ pre, q.2 = Signal.hold)
    (hmid : ∀ q ∈ mid, q.2 = Signal.hold ∧ 0 < q.1)
    (hpost : ∀ q ∈ post, q.2 = Signal.hold)
    (hprice : cs = cb) :
    (runSimulation initial ((c0, Signal.hold)
        :: (pre ++ (cb, Signal.buy) :: (mid ++ (cs, Signal.sell) :: post)))).1.trades
      = [Trade.buy (1 + pre.length) cb initial,
         Trade.sell (1 + pre.length + 1 + mid.length) cs initial 0] ∧
    totalReturn initial (runSimulation initial ((c0, Signal.hold)
        :: (pre ++ (cb, Signal.buy) :: (mid ++ (cs, Signal.sell) :: post)))).2 = 0 := by
  subst hprice
  have hkey := simAux_round_trip initial c0 cs pre mid post hcb.ne' hpre
    (fun q hq => ⟨(hmid q hq).1, (hmid q hq).2.ne'⟩) hpost
  have hfin : (runSimulation initial ((c0, Signal.hold)
      :: (pre ++ (cs, Signal.buy) :: (mid ++ (cs, Signal.sell) :: post)))).1
      = { capital := initial, position := false, entry := cs,
          trades := [Trade.buy (1 + pre.length) cs initial,
                     Trade.sell (1 + pre.length + 1 + mid.length) cs initial 0] } := by
    rw [runSimulation]
    exact hkey
  refine ⟨by rw [hfin], ?_⟩
  rw [totalReturn_final, hfin]
  simp [div_self hinit.ne']

/-- C6, witness: buy at 80 on bar 2, sell at 80 on bar 4. -/
theorem c6_witness :
    (runSimulation 10000 [(100, Signal.hold), (50, Signal.hold), (80, Signal.buy),
        (90, Signal.hold), (80, Signal.sell), (70, Signal.hold)]).1.trades
      = [Trade.buy 2 80 10000, Trade.sell 4 80 10000 0] ∧
    totalReturn 10000 (runSimulation 10000 [(100, Signal.hold), (50, Signal.hold),
        (80, Signal.buy), (90, Signal.hold), (80, Signal.sell),
        (70, Signal.hold)]).2 = 0 := by
  have h := c6_round_trip 10000 100 80 80 [(50, Signal.hold)] [(90, Signal.hold)]
    [(70, Signal.hold)] (by norm_num) (by norm_num)
    (by intro q hq; simp at hq; simp [hq])
    (by intro q hq; simp at hq; simp [hq])
    (by intro q hq; simp at hq; simp [hq]) rfl
  simpa using h

theorem stepSim_capital (st : SimState) (i : ℕ) (p c : ℚ) (s : Signal) :
    (stepSim st i p c s).capital
      = if st.position then st.capital * (1 + (c / p - 1)) else st.capital := by
  obtain ⟨cap, pos, en, tr⟩ := st
  cases pos <;> cases s <;> simp [stepSim]

theorem simAux_pos (l : List (ℚ × Signal)) :
    ∀ (st : SimState) (i : ℕ) (p : ℚ), 0 < st.capital → 0 < p →
      (∀ q ∈ l, 0 < q.1) →
      0 < (simAux st i p l).1.capital ∧ ∀ c ∈ (simAux st i p l).2, 0 < c := by
  induction l with
  | nil => intro st i p h _ _; exact ⟨h, by simp [simAux]⟩
  | cons q rest ih =>
      intro st i p hcap hp hall
      obtain ⟨c, s⟩ := q
      have hc : 0 < c := hall (c, s) (by simp)
      have hcap2 : 0 < (stepSim st i p c s).capital := by
        rw [stepSim_capital]
        split
        · have harith : st.capital * (1 + (c / p - 1)) = st.capital * (c / p) := by
            ring
          rw [harith]
          exact mul_pos hcap (div_pos hc hp)
        · exact hcap
      obtain ⟨h1, h2⟩ := ih (stepSim st i p c s) (i + 1) c hcap2 hc
        (fun r hr => hall r (by simp [hr]))
      constructor
      · rw [simAux]
        exact h1
      · rw [simAux]
        intro x hx
        rcases List.mem_cons.mp hx with rfl | hmem
        · exact hcap2
        · exact h2 x hmem

theorem runSimulation_caps_pos (initial : ℚ) (bars : List (ℚ × Signal))
    (hinit : 0 < initial) (hpos : ∀ q ∈ bars, 0 < q.1) :
    ∀ c ∈ (runSimulation initial bars).2, 0 < c := by
  cases bars with
  | nil => simp [runSimulation]
  | cons b rest =>
      obtain ⟨c0, s0⟩ := b
      have hc0 : 0 < c0 := hpos (c0, s0) (by simp)
      have h := simAux_pos rest
        { capital := initial, position := false, entry := 0, trades := [] }
        1 c0 hinit hc0 (fun r hr => hpos r (by simp [hr]))
      rw [runSimulation]
      intro x hx
      rcases List.mem_cons.mp hx with rfl | hmem
      · exact hinit
      · exact h.2 x hmem

theorem capReturns_one_add_pos (caps : List ℚ) (h : ∀ c ∈ caps, 0 < c) :
    ∀ r ∈ capReturns caps, 0 < 1 + r := by
  intro r hr
  rw [capReturns] at hr
  simp only [List.mem_map] at hr
  obtain ⟨p, hp, hrq⟩ := hr
  obtain ⟨h1, h2⟩ := List.of_mem_zip hp
  have hp1 : 0 < p.1 := h p.1 h1
  have hp2 : 0 < p.2 := h p.2 (List.tail_subset caps h2)
  have : 1 + r = p.2 / p.1 := by rw [← hrq]; ring
  rw [this]
  exact div_pos hp2 hp1

theorem cumProd1p_pos (l : List ℚ) :
    ∀ acc : ℚ, 0 < acc → (∀ r ∈ l, 0 < 1 + r) →
      ∀ x ∈ cumProd1p acc l, 0 < x := by
  induction l with
  | nil => intro acc _ _ x hx; simp [cumProd1p] at hx
  | cons r rs ih =>
      intro acc hacc hall x hx
      have hstep : 0 < acc * (1 + r) := mul_pos hacc (hall r (by simp))
      rw [cumProd1p] at hx
      rcases List.mem_cons.mp hx with rfl | hmem
      · exact hstep
      · exact ih (acc * (1 + r)) hstep (fun q hq => hall q (by simp [hq])) x hmem

theorem cumRets_pos (caps : List ℚ) (h : ∀ c ∈ caps, 0 < c) :
    ∀ x ∈ cumRets caps, 0 < x :=
  cumProd1p_pos (capReturns caps) 1 one_pos (capReturns_one_add_pos caps h)

theorem ddAux_bounds (l : List ℚ) :
    ∀ m : ℚ, 0 < m → (∀ x ∈ l, 0 < x) →
      ∀ d ∈ List.zipWith (fun m c => (m - c) / m) (runMaxAux m l) l,
        0 ≤ d ∧ d < 1 := by
  induction l with
  | nil => intro m _ _ d hd; simp [runMaxAux] at hd
  | cons x xs ih =>
      intro m hm hall d hd
      have hx : 0 < x := hall x (by simp)
      have hM : 0 < max m x := lt_of_lt_of_le hm (le_max_left m x)
      rw [runMaxAux] at hd
      simp only [List.zipWith_cons_cons] at hd
      rcases List.mem_cons.mp hd with rfl | hmem
      · constructor
        · exact div_nonneg (by simp [sub_nonneg, le_max_right]) hM.le
        · rw [div_lt_one hM]
          linarith
      · exact ih (max m x) hM (fun q hq => hall q (by simp [hq])) d hmem

theorem drawdownPcts_bounds (caps : List ℚ) (h : ∀ x ∈ cumRets caps, 0 < x) :
    ∀ d ∈ drawdownPcts caps, 0 ≤ d ∧ d < 1 := by
  intro d hd
  rw [drawdownPcts] at hd
  cases hc : cumRets caps with
  | nil => rw [hc] at hd; simp [runMax] at hd
  | cons y ys =>
      rw [hc] at hd
      have hy : 0 < y := h y (by rw [hc]; simp)
      rw [runMax] at hd
      simp only [List.zipWith_cons_cons] at hd
      rcases List.mem_cons.mp hd with rfl | hmem
      · constructor
        · simp
        · simp
      · exact ddAux_bounds ys y hy
          (fun q hq => h q (by rw [hc]; simp [hq])) d hmem

theorem foldlMax_bounds (l : List ℚ) :
    ∀ a : ℚ, 0 ≤ a → a ≤ 1 → (∀ x ∈ l, 0 ≤ x ∧ x < 1) →
      0 ≤ l.foldl max a ∧ l.foldl max a ≤ 1 := by
  induction l with
  | nil => intro a h0 h1 _; exact ⟨h0, h1⟩
  | cons x xs ih =>
      intro a h0 h1 hall
      have hx := hall x (by simp)
      refine ih (max a x) (le_max_of_le_left h0) ?_
        (fun q hq => hall q (by simp [hq]))
      exact max_le h1 hx.2.le

theorem pdMax_bounds (l : List ℚ) (hne : l ≠ []) (h : ∀ x ∈ l, 0 ≤ x ∧ x < 1) :
    ∃ m : ℚ, pdMax l = some m ∧ 0 ≤ m ∧ m ≤ 1 := by
  cases l with
  | nil => exact absurd rfl hne
  | cons x xs =>
      have hx := h x (by simp)
      exact ⟨xs.foldl max x, rfl,
        foldlMax_bounds xs x hx.1 hx.2.le (fun q hq => h q (by simp [hq]))⟩

theorem ddAux_zero_of_chain (l : List ℚ) :
    ∀ m : ℚ, List.Chain' (· ≤ ·) (m :: l) →
      ∀ d ∈ List.zipWith (fun m c => (m - c) / m) (runMaxAux m l) l, d = 0 := by
  induction l with
  | nil => intro m _ d hd; simp [runMaxAux] at hd
  | cons x xs ih =>
      intro m hc d hd
      rw [List.chain'_cons] at hc
      have hmx : max m x = x := max_eq_right hc.1
      rw [runMaxAux, hmx] at hd
      simp only [List.zipWith_cons_cons] at hd
      rcases List.mem_cons.mp hd with rfl | hmem
      · simp
      · exact ih x hc.2 d hmem

theorem pdMax_zero (l : List ℚ) (hne : l ≠ []) (h : ∀ x ∈ l, x = 0) :
    pdMax l = some 0 := by
  have haux : ∀ (l : List ℚ) (a : ℚ), (∀ x ∈ l, x = 0) →
      l.foldl max a = max a 0 ∨ l = [] ∧ l.foldl max a = a := by
    intro l
    induction l with
    | nil => intro a _; right; exact ⟨rfl, rfl⟩
    | cons x xs ih =>
        intro a hall
        left
        have hx : x = 0 := hall x (by simp)
        subst hx
        rcases ih (max a 0) (fun q hq => hall q (by simp [hq])) with h1 | ⟨h1, h2⟩
        · simp only [List.foldl, max_assoc] at h1 ⊢
          exact h1
        · subst h1
          simp only [List.foldl] at h2 ⊢
  cases l with
  | nil => exact absurd rfl hne
  | cons x xs =>
      have hx : x = 0 := h x (by simp)
      subst hx
      rw [pdMax, Option.some_inj]
      rcases haux xs 0 (fun q hq => h q (by simp [hq])) with h1 | ⟨_, h2⟩
      · simpa using h1
      · exact h2

theorem simAux_caps_length (l : List (ℚ × Signal)) :
    ∀ (st : SimState) (i : ℕ) (p : ℚ), (simAux st i p l).2.length = l.length := by
  induction l with
  | nil => intro st i p; rfl
  | cons q rest ih =>
      intro st i p
      obtain ⟨c, s⟩ := q
      rw [simAux]
      simp [ih _ (i + 1) c]

theorem runSimulation_caps_length (initial : ℚ) (bars : List (ℚ × Signal)) :
    (runSimulation initial bars).2.length = bars.length := by
  cases bars with
  | nil => rfl
  | cons b rest =>
      obtain ⟨c0, s0⟩ := b
      rw [runSimulation]
      simp [simAux_caps_length]

theorem capReturns_length (caps : List ℚ) :
    (capReturns caps).length = caps.length - 1 := by
  simp only [capReturns, List.length_map, List.length_zip, List.length_tail]
  omega

theorem cumProd1p_length (l : List ℚ) :
    ∀ acc : ℚ, (cumProd1p acc l).length = l.length := by
  induction l with
  | nil => intro acc; rfl
  | cons r rs ih => intro acc; simp [cumProd1p, ih]

theorem cumRets_length (caps : List ℚ) :
    (cumRets caps).length = caps.length - 1 := by
  rw [cumRets, cumProd1p_length, capReturns_length]

theorem runMaxAux_length (l : List ℚ) :
    ∀ m : ℚ, (runMaxAux m l).length = l.length := by
  induction l with
  | nil => intro m; rfl
  | cons x xs ih => intro m; simp [runMaxAux, ih]

theorem drawdownPcts_length (caps : List ℚ) :
    (drawdownPcts caps).length = (cumRets caps).length := by
  rw [drawdownPcts]
  cases hc : cumRets caps with
  | nil => simp [runMax]
  | cons y ys => simp [runMax, runMaxAux_length]

/-- C8, counterexample.  A single bar with a positive close and positive
initial capital does reach metric derivation (run_backtest only returns
early on an empty frame), yet every entry of its returns and drawdown
columns is NaN, so df['drawdown_pct'].max() is NaN: the max drawdown is
neither at least 0 nor at most 100 nor equal to 0, refuting the claim's
unrestricted bounds. -/
theorem c8_counterexample :
    (0 : ℚ) < 10000 ∧ (∀ q ∈ [((100 : ℚ), Signal.hold)], 0 < q.1) ∧
    (runSimulation 10000 [(100, Signal.hold)]).2 = [10000] ∧
    maxDrawdown (runSimulation 10000 [(100, Signal.hold)]).2 = none := by
  refine ⟨by norm_num, by norm_num, rfl, rfl⟩

/-- C8, amended.  For every simulation of at least two bars over positive
close prices and positive initial capital, the max-drawdown metric is a
defined value between 0 and 100, and it is 0 whenever the
cumulative-return series is non-decreasing throughout; with fewer than two
bars every drawdown entry is NaN and the metric is NaN (see the
counterexample). -/
theorem c8_max_drawdown_amended (initial : ℚ) (bars : List (ℚ × Signal))
    (hinit : 0 < initial) (hpos : ∀ q ∈ bars, 0 < q.1)
    (hlen : 2 ≤ bars.length) :
    ∃ m : ℚ, maxDrawdown (runSimulation initial bars).2 = some m ∧
      0 ≤ m ∧ m ≤ 100 ∧
      (List.Chain' (· ≤ ·) (cumRets (runSimulation initial bars).2) →
        m = 0) := by
  have hcaps := runSimulation_caps_pos initial bars hinit hpos
  have hcum := cumRets_pos _ hcaps
  have hdd := drawdownPcts_bounds _ hcum
  have hne : drawdownPcts (runSimulation initial bars).2 ≠ [] := by
    have h1 := drawdownPcts_length (runSimulation initial bars).2
    have h2 := cumRets_length (runSimulation initial bars).2
    have h3 := runSimulation_caps_length initial bars
    apply List.length_pos.mp
    omega
  obtain ⟨m0, hm0, hb0, hb1⟩ := pdMax_bounds _ hne hdd
  refine ⟨m0 * 100, ?_, by linarith, by linarith, ?_⟩
  · rw [maxDrawdown, hm0]
    rfl
  · intro hchain
    have hzero : ∀ d ∈ drawdownPcts (runSimulation initial bars).2, d = 0 := by
      intro d hd
      rw [drawdownPcts] at hd
      cases hc : cumRets (runSimulation initial bars).2 with
      | nil => rw [hc] at hd; simp [runMax] at hd
      | cons y ys =>
          rw [hc] at hd
          rw [runMax] at hd
          simp only [List.zipWith_cons_cons] at hd
          rcases List.mem_cons.mp hd with rfl | hmem
          · simp
          · rw [hc] at hchain
            exact ddAux_zero_of_chain ys y hchain d hmem
    have h0 := pdMax_zero _ hne hzero
    rw [h0, Option.some_inj] at hm0
    rw [← hm0]
    ring

/-- C8, witness: two rising bars with no trades give a defined max drawdown
within the bounds. -/
theorem c8_max_drawdown_witness :
    ∃ m : ℚ, maxDrawdown (runSimulation 1000
        [(100, Signal.hold), (110, Signal.hold)]).2 = some m ∧
      0 ≤ m ∧ m ≤ 100 ∧
      (List.Chain' (· ≤ ·) (cumRets (runSimulation 1000
          [(100, Signal.hold), (110, Signal.hold)]).2) → m = 0) :=
  c8_max_drawdown_amended 1000 [(100, Signal.hold), (110, Signal.hold)]
    (by norm_num)
    (by intro q hq; simp at hq; rcases hq with h | h <;> simp [h])
    (by norm_num)

end OkxBot
